import Mathlib

/-!
Verification of the arbitrary-precision arithmetic core of `Karatsuba.py`.

The source represents a non-negative integer as a list of digits,
most-significant digit first, in a configurable base.  The three operations
`add`, `subtract` and `multiply` are embedded below as pure functions on
`List Nat`.  The Python code is Python 2, where `/` and `%` on non-negative
integers coincide with `Nat.div` and `Nat.mod`, and all digit values occurring
in the claims are non-negative, so `Nat` digits are a faithful model.

The imperative loops of the source become structural recursions over the
digit lists reversed into least-significant-first order, mirroring the
`lhs[-i]` reverse traversal of the Python loops.  `multiply` is recursive but
not structurally so (the middle Karatsuba call can receive operands of the
same padded length as the current call), hence it is embedded with an explicit
fuel parameter; `kfuel` computes a fuel bound that is proved sufficient for
every valid input, which is exactly the termination statement for the source.
A `none` result of `multiplyF` models a failing run: either the source's
`assert len(lhs) > 0 and len(rhs) > 0` fires, or the recursion would not have
come back within the given fuel.
-/

namespace Karatsuba

/-- Value of a digit list written least-significant digit first. -/
def valRev (b : Nat) : List Nat → Nat
  | [] => 0
  | d :: ds => d + b * valRev b ds

/-- Value of a digit list written most-significant digit first, as the
source stores numbers. -/
def toVal (b : Nat) (l : List Nat) : Nat :=
  valRev b l.reverse

/-- Left-pad a digit list with zeros up to length `n`, as done by the
`[0 for i in range(len(lhs), length)] + lhs` lines of the source. -/
def padTo (n : Nat) (l : List Nat) : List Nat :=
  List.replicate (n - l.length) 0 ++ l

/-- Loop body of `add` (Karatsuba.py lines 119-130): both operands are
traversed least-significant first, each column emits `column % base` and
carries `column / base`; a final nonzero carry is appended. -/
def addLoop (b : Nat) : List Nat → List Nat → Nat → List Nat
  | l :: ls, r :: rs, c => ((l + r + c) % b) :: addLoop b ls rs ((l + r + c) / b)
  | _, _, c => if c = 0 then [] else [c]

/-- Embedding of `add` (Karatsuba.py lines 100-136): pad both operands to a
common length, scan from the least-significant end, reverse the accumulated
digits back into most-significant-first order. -/
def add (lhs rhs : List Nat) (b : Nat) : List Nat :=
  (addLoop b (padTo (max lhs.length rhs.length) lhs).reverse
             (padTo (max lhs.length rhs.length) rhs).reverse 0).reverse

/-- Borrow walk of `subtract` (Karatsuba.py lines 163-177): the next more
significant digits, least-significant first.  Each visited digit is replaced
by `(digit + (base - 1)) % base`; the walk continues while the replacement
equals `base - 1` and stops silently when the list is exhausted, exactly as
the Python `while j <= length` loop does. -/
def borrow (b : Nat) : List Nat → List Nat
  | [] => []
  | d :: ds =>
    if (d + (b - 1)) % b = b - 1 then ((d + (b - 1)) % b) :: borrow b ds
    else ((d + (b - 1)) % b) :: ds

/-- Loop body of `subtract` (Karatsuba.py lines 155-182) on the reversed
operands: a non-negative column difference is emitted directly, otherwise the
borrow walk rewrites the remaining digits of `lhs` and `difference + base`
is emitted. -/
def subLoop (b : Nat) : List Nat → List Nat → List Nat
  | l :: ls, r :: rs =>
    if r ≤ l then (l - r) :: subLoop b ls rs
    else (l + b - r) :: subLoop b (borrow b ls) rs
  | _, _ => []

/-- Embedding of `subtract` (Karatsuba.py lines 138-188). -/
def subtract (lhs rhs : List Nat) (b : Nat) : List Nat :=
  (subLoop b (padTo (max lhs.length rhs.length) lhs).reverse
             (padTo (max lhs.length rhs.length) rhs).reverse).reverse

/-- Embedding of `multiply` (Karatsuba.py lines 190-246) with explicit fuel.
`none` models the `assert` failing on an empty operand, or fuel exhaustion.
The body mirrors the source line by line: pad to the common length, multiply
single digits directly, otherwise split at `m0 = (length + 1) / 2`, recurse
on the three Karatsuba products, recombine with `subtract` and two shifted
`add`s.  No trimming of leading zeros is performed anywhere. -/
def multiplyF (b : Nat) : Nat → List Nat → List Nat → Option (List Nat)
  | 0, _, _ => none
  | fuel + 1, lhs, rhs =>
    if lhs.length = 0 ∨ rhs.length = 0 then none
    else
      let n := max lhs.length rhs.length
      let L := padTo n lhs
      let R := padTo n rhs
      if n = 1 then
        some (if L.headD 0 * R.headD 0 < b then [L.headD 0 * R.headD 0]
              else [L.headD 0 * R.headD 0 / b, L.headD 0 * R.headD 0 % b])
      else
        let m0 := (n + 1) / 2
        let m1 := n / 2
        let x0 := L.take m0
        let x1 := L.drop m0
        let y0 := R.take m0
        let y1 := R.drop m0
        match multiplyF b fuel x0 y0,
              multiplyF b fuel (add x0 x1 b) (add y0 y1 b),
              multiplyF b fuel x1 y1 with
        | some p0, some p1, some p2 =>
          some (add (add (p0 ++ List.replicate (2 * m1) 0)
                         ((subtract p1 (add p0 p2 b) b) ++ List.replicate m1 0) b)
                    p2 b)
        | _, _, _ => none

/-- Fuel bound used by the top-level `multiply` wrapper; proved sufficient
for all valid inputs below. -/
def kfuel (lhs rhs : List Nat) (b : Nat) : Nat :=
  toVal b lhs + toVal b rhs + max lhs.length rhs.length + 1

/-- Top-level `multiply`: run the embedded recursion with the computed fuel
bound. -/
def multiply (lhs rhs : List Nat) (b : Nat) : Option (List Nat) :=
  multiplyF b (kfuel lhs rhs b) lhs rhs

/-- Strip the leading zero block of a most-significant-first digit list. -/
def trimZeros (l : List Nat) : List Nat :=
  l.dropWhile (fun d => d == 0)

/-! ### Values, padding and shifting -/

theorem valRev_append (b : Nat) (u v : List Nat) :
    valRev b (u ++ v) = valRev b u + b ^ u.length * valRev b v := by
  induction u with
  | nil => simp [valRev]
  | cons d ds ih =>
    have h1 : valRev b ((d :: ds) ++ v) = d + b * valRev b (ds ++ v) := rfl
    have h2 : valRev b (d :: ds) = d + b * valRev b ds := rfl
    rw [h1, h2, ih, List.length_cons, pow_succ]
    ring

theorem valRev_replicate_zero (b k : Nat) :
    valRev b (List.replicate k 0) = 0 := by
  induction k with
  | zero => rfl
  | succ k ih => simp [List.replicate_succ, valRev, ih]

theorem toVal_nil (b : Nat) : toVal b [] = 0 := rfl

theorem toVal_singleton (b d : Nat) : toVal b [d] = d := by
  simp [toVal, valRev]

theorem toVal_append (b : Nat) (u v : List Nat) :
    toVal b (u ++ v) = toVal b u * b ^ v.length + toVal b v := by
  simp only [toVal, List.reverse_append, valRev_append, List.length_reverse]
  ring

theorem toVal_cons (b d : Nat) (ds : List Nat) :
    toVal b (d :: ds) = d * b ^ ds.length + toVal b ds := by
  have h := toVal_append b [d] ds
  simpa [toVal_singleton] using h

theorem toVal_shift (b k : Nat) (l : List Nat) :
    toVal b (l ++ List.replicate k 0) = toVal b l * b ^ k := by
  rw [toVal_append]
  simp [toVal, List.reverse_replicate, valRev_replicate_zero]

theorem padTo_length {n : Nat} (l : List Nat) (h : l.length ≤ n) :
    (padTo n l).length = n := by
  simp [padTo]
  omega

theorem toVal_padTo (b n : Nat) (l : List Nat) :
    toVal b (padTo n l) = toVal b l := by
  simp [padTo, toVal, List.reverse_append, List.reverse_replicate,
    valRev_append, valRev_replicate_zero]

theorem padTo_valid {b n : Nat} {l : List Nat} (hb : 0 < b)
    (h : ∀ d ∈ l, d < b) : ∀ d ∈ padTo n l, d < b := by
  intro d hd
  rcases List.mem_append.mp hd with h0 | h1
  · rcases List.eq_of_mem_replicate h0 with rfl; exact hb
  · exact h d h1

theorem valRev_eq_zero {b : Nat} (hb : 1 ≤ b) :
    ∀ {u : List Nat}, valRev b u = 0 → ∀ d ∈ u, d = 0 := by
  intro u
  induction u with
  | nil => intro _ d hd; cases hd
  | cons a as ih =>
    intro h d hd
    simp only [valRev] at h
    have ha : a = 0 := by omega
    have has : valRev b as = 0 := by
      have h' : b * valRev b as = 0 := by omega
      rcases Nat.mul_eq_zero.mp h' with h'' | h''
      · omega
      · exact h''
    rcases List.mem_cons.mp hd with rfl | hd'
    · exact ha
    · exact ih has d hd'

/-! ### Lemmas about the addition loop -/

theorem addLoop_valRev (b : Nat) :
    ∀ (u v : List Nat) (c : Nat), u.length = v.length →
      valRev b (addLoop b u v c) = valRev b u + valRev b v + c := by
  intro u
  induction u with
  | nil =>
    intro v c hlen
    have hv : v = [] := by
      cases v with
      | nil => rfl
      | cons r rs => simp at hlen
    subst hv
    by_cases hc : c = 0 <;> simp [addLoop, hc, valRev]
  | cons l ls ih =>
    intro v c hlen
    cases v with
    | nil => simp at hlen
    | cons r rs =>
      simp only [List.length_cons, Nat.succ.injEq] at hlen
      simp only [addLoop, valRev]
      rw [ih rs ((l + r + c) / b) hlen, Nat.mul_add, Nat.mul_add]
      have h := Nat.mod_add_div (l + r + c) b
      omega

theorem addLoop_nil (b : Nat) (v : List Nat) (c : Nat) :
    addLoop b [] v c = if c = 0 then [] else [c] := by
  cases v <;> rfl

theorem addLoop_cons_nil (b : Nat) (l : Nat) (ls : List Nat) (c : Nat) :
    addLoop b (l :: ls) [] c = if c = 0 then [] else [c] := rfl

theorem addLoop_length_le (b : Nat) :
    ∀ (u v : List Nat) (c : Nat), (addLoop b u v c).length ≤ max u.length v.length + 1 := by
  intro u
  induction u with
  | nil =>
    intro v c
    rw [addLoop_nil]
    by_cases hc : c = 0 <;> simp [hc]
  | cons l ls ih =>
    intro v c
    cases v with
    | nil =>
      rw [addLoop_cons_nil]
      by_cases hc : c = 0 <;> simp [hc]
    | cons r rs =>
      simp only [addLoop, List.length_cons]
      have := ih rs ((l + r + c) / b)
      omega

theorem addLoop_length_ge (b : Nat) :
    ∀ (u v : List Nat) (c : Nat), u.length = v.length →
      u.length ≤ (addLoop b u v c).length := by
  intro u
  induction u with
  | nil => intro v c _; simp
  | cons l ls ih =>
    intro v c hlen
    cases v with
    | nil => simp at hlen
    | cons r rs =>
      simp only [List.length_cons, Nat.succ.injEq] at hlen
      simp only [addLoop, List.length_cons]
      have := ih rs ((l + r + c) / b) hlen
      omega

theorem addLoop_valid {b : Nat} (hb : 2 ≤ b) :
    ∀ (u v : List Nat) (c : Nat), (∀ d ∈ u, d < b) → (∀ d ∈ v, d < b) → c ≤ 1 →
      ∀ d ∈ addLoop b u v c, d < b := by
  intro u
  induction u with
  | nil =>
    intro v c _ _ hc d hd
    rw [addLoop_nil] at hd
    by_cases h0 : c = 0
    · simp [h0] at hd
    · simp [h0] at hd
      omega
  | cons l ls ih =>
    intro v c hu hv hc d hd
    cases v with
    | nil =>
      rw [addLoop_cons_nil] at hd
      by_cases h0 : c = 0
      · simp [h0] at hd
      · simp [h0] at hd
        omega
    | cons r rs =>
      simp only [addLoop, List.mem_cons] at hd
      rcases hd with rfl | hd'
      · exact Nat.mod_lt _ (by omega)
      · refine ih rs ((l + r + c) / b) (fun x hx => hu x (List.mem_cons_of_mem _ hx))
          (fun x hx => hv x (List.mem_cons_of_mem _ hx)) ?_ d hd'
        have hl : l < b := hu l (List.mem_cons_self l ls)
        have hr : r < b := hv r (List.mem_cons_self r rs)
        have hdiv : (l + r + c) / b < 2 :=
          (Nat.div_lt_iff_lt_mul (by omega)).mpr (by omega)
        omega

theorem addLoop_zeros {b : Nat} :
    ∀ (u v : List Nat), u.length = v.length → (∀ d ∈ u, d = 0) → (∀ d ∈ v, d < b) →
      addLoop b u v 0 = v := by
  intro u
  induction u with
  | nil =>
    intro v hlen _ _
    have hv : v = [] := by
      cases v with
      | nil => rfl
      | cons r rs => simp at hlen
    subst hv
    rfl
  | cons l ls ih =>
    intro v hlen hu hv
    cases v with
    | nil => simp at hlen
    | cons r rs =>
      simp only [List.length_cons, Nat.succ.injEq] at hlen
      have hl : l = 0 := hu l (List.mem_cons_self l ls)
      have hr : r < b := hv r (List.mem_cons_self r rs)
      simp only [addLoop, hl, Nat.zero_add, Nat.add_zero]
      rw [Nat.mod_eq_of_lt hr, Nat.div_eq_of_lt hr]
      rw [ih rs hlen (fun x hx => hu x (List.mem_cons_of_mem _ hx))
        (fun x hx => hv x (List.mem_cons_of_mem _ hx))]

theorem addLoop_last (b : Nat) :
    ∀ (us vs : List Nat) (du dv c : Nat), us.length = vs.length →
      ∃ ds d, addLoop b (us ++ [du]) (vs ++ [dv]) c = ds ++ [d] ∧
        (1 ≤ du + dv → d ≠ 0) := by
  intro us
  induction us with
  | nil =>
    intro vs du dv c hlen
    have hv : vs = [] := by
      cases vs with
      | nil => rfl
      | cons r rs => simp at hlen
    subst hv
    by_cases hq : (du + dv + c) / b = 0
    · refine ⟨[], (du + dv + c) % b, ?_, ?_⟩
      · simp [addLoop, hq]
      · intro h1
        by_cases hb0 : b = 0
        · subst hb0
          simpa using by omega
        · have hlt : du + dv + c < b := by
            rcases Nat.lt_or_ge (du + dv + c) b with h | h
            · exact h
            · exact absurd hq (by
                have : 1 ≤ (du + dv + c) / b := (Nat.one_le_div_iff (by omega)).mpr h
                omega)
          rw [Nat.mod_eq_of_lt hlt]
          omega
    · refine ⟨[(du + dv + c) % b], (du + dv + c) / b, ?_, fun _ => hq⟩
      simp [addLoop, hq]
  | cons a us' ih =>
    intro vs du dv c hlen
    cases vs with
    | nil => simp at hlen
    | cons a' vs' =>
      simp only [List.length_cons, Nat.succ.injEq] at hlen
      obtain ⟨ds, d, heq, himp⟩ := ih vs' du dv ((a + a' + c) / b) hlen
      refine ⟨((a + a' + c) % b) :: ds, d, ?_, himp⟩
      simp only [List.cons_append, addLoop, List.append_eq, heq]

/-! ### Lemmas about `add` -/

theorem add_val (lhs rhs : List Nat) (b : Nat) :
    toVal b (add lhs rhs b) = toVal b lhs + toVal b rhs := by
  have hl : (padTo (max lhs.length rhs.length) lhs).reverse.length =
      (padTo (max lhs.length rhs.length) rhs).reverse.length := by
    simp only [List.length_reverse]
    rw [padTo_length _ (le_max_left _ _), padTo_length _ (le_max_right _ _)]
  unfold add
  rw [toVal, List.reverse_reverse, addLoop_valRev b _ _ 0 hl]
  have h1 : valRev b (padTo (max lhs.length rhs.length) lhs).reverse =
      toVal b lhs := by
    rw [← toVal_padTo b (max lhs.length rhs.length) lhs]; rfl
  have h2 : valRev b (padTo (max lhs.length rhs.length) rhs).reverse =
      toVal b rhs := by
    rw [← toVal_padTo b (max lhs.length rhs.length) rhs]; rfl
  rw [h1, h2]
  omega

theorem add_valid {b : Nat} (hb : 2 ≤ b) (lhs rhs : List Nat)
    (hl : ∀ d ∈ lhs, d < b) (hr : ∀ d ∈ rhs, d < b) :
    ∀ d ∈ add lhs rhs b, d < b := by
  intro d hd
  unfold add at hd
  rw [List.mem_reverse] at hd
  refine addLoop_valid hb _ _ 0 ?_ ?_ (by omega) d hd
  · intro x hx
    exact padTo_valid (by omega) hl x (List.mem_reverse.mp hx)
  · intro x hx
    exact padTo_valid (by omega) hr x (List.mem_reverse.mp hx)

theorem add_length_le (lhs rhs : List Nat) (b : Nat) :
    (add lhs rhs b).length ≤ max lhs.length rhs.length + 1 := by
  unfold add
  rw [List.length_reverse]
  have h := addLoop_length_le b (padTo (max lhs.length rhs.length) lhs).reverse
    (padTo (max lhs.length rhs.length) rhs).reverse 0
  simp only [List.length_reverse] at h
  rw [padTo_length _ (le_max_left _ _), padTo_length _ (le_max_right _ _)] at h
  omega

theorem add_length_ge (lhs rhs : List Nat) (b : Nat) :
    max lhs.length rhs.length ≤ (add lhs rhs b).length := by
  unfold add
  rw [List.length_reverse]
  have hlen : (padTo (max lhs.length rhs.length) lhs).reverse.length =
      (padTo (max lhs.length rhs.length) rhs).reverse.length := by
    simp only [List.length_reverse]
    rw [padTo_length _ (le_max_left _ _), padTo_length _ (le_max_right _ _)]
  have h := addLoop_length_ge b (padTo (max lhs.length rhs.length) lhs).reverse
    (padTo (max lhs.length rhs.length) rhs).reverse 0 hlen
  simp only [List.length_reverse] at h
  rw [padTo_length _ (le_max_left _ _)] at h
  omega

theorem add_ne_nil (lhs rhs : List Nat) (b : Nat) (h : lhs ≠ []) :
    add lhs rhs b ≠ [] := by
  have hge := add_length_ge lhs rhs b
  have h1 : 1 ≤ lhs.length := by
    cases lhs with
    | nil => exact absurd rfl h
    | cons x xs => simp
  intro hnil
  have h0 : (add lhs rhs b).length = 0 := by rw [hnil]; rfl
  omega

/-- When the left operand consists of zero digits only and is at least as
long as the right one, `add` returns the right operand padded to the left
operand's length: no carry is ever produced. -/
theorem add_zeros {b : Nat} (hb : 0 < b) (lhs rhs : List Nat)
    (hz : ∀ d ∈ lhs, d = 0) (hr : ∀ d ∈ rhs, d < b) (hlen : rhs.length ≤ lhs.length) :
    add lhs rhs b = padTo lhs.length rhs := by
  have hmax : max lhs.length rhs.length = lhs.length := by omega
  unfold add
  rw [hmax]
  have hpl : padTo lhs.length lhs = lhs := by
    simp [padTo]
  rw [hpl]
  rw [addLoop_zeros _ _ ?hl ?hz ?hv]
  · rw [List.reverse_reverse]
  case hl =>
    simp only [List.length_reverse]
    rw [padTo_length _ hlen]
  case hz =>
    intro d hd
    exact hz d (List.mem_reverse.mp hd)
  case hv =>
    intro d hd
    exact padTo_valid hb hr d (List.mem_reverse.mp hd)

/-- Leading digit of `add`: when the padded leading column is nonzero, the
leading digit of the result is nonzero. -/
theorem add_headD {b : Nat} (lhs rhs : List Nat)
    (h : 1 ≤ (padTo (max lhs.length rhs.length) lhs).headD 0 +
         (padTo (max lhs.length rhs.length) rhs).headD 0) :
    (add lhs rhs b).headD 0 ≠ 0 := by
  rcases hL : padTo (max lhs.length rhs.length) lhs with _ | ⟨dl, tl⟩
  · rcases hR : padTo (max lhs.length rhs.length) rhs with _ | ⟨dr, tr⟩
    · rw [hL, hR] at h
      simp at h
    · exfalso
      have h1 : (padTo (max lhs.length rhs.length) lhs).length =
          max lhs.length rhs.length := padTo_length _ (le_max_left _ _)
      have h2 : (padTo (max lhs.length rhs.length) rhs).length =
          max lhs.length rhs.length := padTo_length _ (le_max_right _ _)
      rw [hL] at h1
      rw [hR] at h2
      simp at h1 h2
      omega
  · rcases hR : padTo (max lhs.length rhs.length) rhs with _ | ⟨dr, tr⟩
    · exfalso
      have h1 : (padTo (max lhs.length rhs.length) lhs).length =
          max lhs.length rhs.length := padTo_length _ (le_max_left _ _)
      have h2 : (padTo (max lhs.length rhs.length) rhs).length =
          max lhs.length rhs.length := padTo_length _ (le_max_right _ _)
      rw [hL] at h1
      rw [hR] at h2
      simp at h1 h2
      omega
    · have hlen : tl.reverse.length = tr.reverse.length := by
        have h1 : (padTo (max lhs.length rhs.length) lhs).length =
            max lhs.length rhs.length := padTo_length _ (le_max_left _ _)
        have h2 : (padTo (max lhs.length rhs.length) rhs).length =
            max lhs.length rhs.length := padTo_length _ (le_max_right _ _)
        rw [hL] at h1
        rw [hR] at h2
        simp at h1 h2
        have : tl.length = tr.length := by omega
        simp [this]
      obtain ⟨ds, d, heq, himp⟩ := addLoop_last b tl.reverse tr.reverse dl dr 0 hlen
      have hhead : 1 ≤ dl + dr := by
        rw [hL, hR] at h
        simpa using h
      unfold add
      rw [hL, hR]
      simp only [List.reverse_cons, heq, List.reverse_append]
      simp [himp hhead]

/-! ### Lemmas about the borrow walk and `subtract` -/

theorem borrow_length (b : Nat) : ∀ ls : List Nat, (borrow b ls).length = ls.length := by
  intro ls
  induction ls with
  | nil => rfl
  | cons d ds ih =>
    by_cases h : (d + (b - 1)) % b = b - 1 <;> simp [borrow, h, ih]

theorem borrow_valid {b : Nat} (hb : 0 < b) :
    ∀ ls : List Nat, (∀ d ∈ ls, d < b) → ∀ d ∈ borrow b ls, d < b := by
  intro ls
  induction ls with
  | nil => intro _ d hd; cases hd
  | cons a as ih =>
    intro hv d hd
    by_cases h : (a + (b - 1)) % b = b - 1 <;> simp only [borrow, h, if_true, if_false] at hd
    · rcases List.mem_cons.mp hd with rfl | hd'
      · omega
      · exact ih (fun x hx => hv x (List.mem_cons_of_mem _ hx)) d hd'
    · rcases List.mem_cons.mp hd with rfl | hd'
      · exact Nat.mod_lt _ hb
      · exact hv d (List.mem_cons_of_mem _ hd')

theorem valRev_cons (b d : Nat) (ds : List Nat) :
    valRev b (d :: ds) = d + b * valRev b ds := rfl

/-- The borrow walk on a nonzero remainder decrements its value by one. -/
theorem borrow_valRev {b : Nat} (hb : 2 ≤ b) :
    ∀ ls : List Nat, (∀ d ∈ ls, d < b) → 1 ≤ valRev b ls →
      valRev b (borrow b ls) = valRev b ls - 1 := by
  intro ls
  induction ls with
  | nil => intro _ h1; simp [valRev] at h1
  | cons d ds ih =>
    intro hv h1
    have hd : d < b := hv d (List.mem_cons_self d ds)
    by_cases h0 : d = 0
    · subst h0
      have hwrap : (0 + (b - 1)) % b = b - 1 := by
        rw [Nat.zero_add, Nat.mod_eq_of_lt (by omega)]
      have hbor : borrow b (0 :: ds) = (b - 1) :: borrow b ds := by
        simp [borrow, hwrap]
      have hvds0 : valRev b (0 :: ds) = b * valRev b ds := by
        rw [valRev_cons, Nat.zero_add]
      have hds : 1 ≤ valRev b ds := by
        rcases Nat.eq_zero_or_pos (valRev b ds) with h | h
        · rw [hvds0, h, Nat.mul_zero] at h1
          omega
        · exact h
      have hih := ih (fun x hx => hv x (List.mem_cons_of_mem _ hx)) hds
      rw [hbor, valRev_cons, hih, hvds0]
      have hexp : b * valRev b ds = b * (valRev b ds - 1) + b := by
        conv_lhs => rw [show valRev b ds = valRev b ds - 1 + 1 by omega]
        rw [Nat.mul_add, Nat.mul_one]
      omega
    · have hd1 : 1 ≤ d := by omega
      have hnowrap : (d + (b - 1)) % b = d - 1 := by
        have hge : b ≤ d + (b - 1) := by omega
        rw [Nat.mod_eq_sub_mod hge]
        have heq : d + (b - 1) - b = d - 1 := by omega
        rw [heq, Nat.mod_eq_of_lt (by omega)]
      have hne : (d + (b - 1)) % b = b - 1 → False := by
        rw [hnowrap]
        omega
      have hbor : borrow b (d :: ds) = ((d + (b - 1)) % b) :: ds := by
        simp only [borrow, if_neg hne]
      rw [hbor, hnowrap, valRev_cons, valRev_cons]
      omega

theorem subLoop_nil_right (b : Nat) (u : List Nat) : subLoop b u [] = [] := by
  cases u <;> rfl

theorem subLoop_length (b : Nat) :
    ∀ (v u : List Nat), u.length = v.length → (subLoop b u v).length = u.length := by
  intro v
  induction v with
  | nil =>
    intro u hlen
    rw [subLoop_nil_right]
    simp at hlen
    simp [hlen]
  | cons r rs ih =>
    intro u hlen
    cases u with
    | nil => simp at hlen
    | cons l ls =>
      simp only [List.length_cons, Nat.succ.injEq] at hlen
      by_cases h : r ≤ l
      · simp only [subLoop, if_pos h, List.length_cons, ih ls hlen]
      · simp only [subLoop, if_neg h, List.length_cons]
        have hblen : (borrow b ls).length = rs.length := by
          rw [borrow_length]
          exact hlen
        rw [ih (borrow b ls) hblen, borrow_length, hlen]

theorem subLoop_valid {b : Nat} (hb : 2 ≤ b) :
    ∀ (v u : List Nat), u.length = v.length → (∀ d ∈ u, d < b) → (∀ d ∈ v, d < b) →
      ∀ d ∈ subLoop b u v, d < b := by
  intro v
  induction v with
  | nil =>
    intro u _ _ _ d hd
    rw [subLoop_nil_right] at hd
    cases hd
  | cons r rs ih =>
    intro u hlen hu hv d hd
    cases u with
    | nil => simp at hlen
    | cons l ls =>
      simp only [List.length_cons, Nat.succ.injEq] at hlen
      have hl : l < b := hu l (List.mem_cons_self l ls)
      have hr : r < b := hv r (List.mem_cons_self r rs)
      have hvls : ∀ x ∈ ls, x < b := fun x hx => hu x (List.mem_cons_of_mem _ hx)
      have hvrs : ∀ x ∈ rs, x < b := fun x hx => hv x (List.mem_cons_of_mem _ hx)
      by_cases h : r ≤ l
      · simp only [subLoop, if_pos h, List.mem_cons] at hd
        rcases hd with rfl | hd'
        · omega
        · exact ih ls hlen hvls hvrs d hd'
      · simp only [subLoop, if_neg h, List.mem_cons] at hd
        rcases hd with rfl | hd'
        · omega
        · refine ih (borrow b ls) ?_ ?_ hvrs d hd'
          · rw [borrow_length]
            exact hlen
          · exact borrow_valid (by omega) ls hvls

/-- Value correctness of the subtraction loop on any inputs with
`rhs <= lhs` as values: the borrow propagation computes the difference. -/
theorem subLoop_valRev {b : Nat} (hb : 2 ≤ b) :
    ∀ (v u : List Nat), u.length = v.length → (∀ d ∈ u, d < b) → (∀ d ∈ v, d < b) →
      valRev b v ≤ valRev b u →
      valRev b (subLoop b u v) = valRev b u - valRev b v := by
  intro v
  induction v with
  | nil =>
    intro u hlen _ _ _
    have hu : u = [] := List.eq_nil_of_length_eq_zero (by simpa using hlen)
    subst hu
    rw [subLoop_nil_right]
    simp [valRev]
  | cons r rs ih =>
    intro u hlen hu hv hle
    cases u with
    | nil => simp at hlen
    | cons l ls =>
      simp only [List.length_cons, Nat.succ.injEq] at hlen
      have hl : l < b := hu l (List.mem_cons_self l ls)
      have hr : r < b := hv r (List.mem_cons_self r rs)
      have hvls : ∀ x ∈ ls, x < b := fun x hx => hu x (List.mem_cons_of_mem _ hx)
      have hvrs : ∀ x ∈ rs, x < b := fun x hx => hv x (List.mem_cons_of_mem _ hx)
      rw [valRev_cons, valRev_cons] at hle
      by_cases h : r ≤ l
      · have hLs : valRev b rs ≤ valRev b ls := by
          by_contra hc
          push_neg at hc
          have h' : valRev b ls + 1 ≤ valRev b rs := hc
          have h'' : b * (valRev b ls + 1) ≤ b * valRev b rs :=
            Nat.mul_le_mul_left b h'
          rw [Nat.mul_add, Nat.mul_one] at h''
          omega
        have hres : subLoop b (l :: ls) (r :: rs) = (l - r) :: subLoop b ls rs := by
          simp only [subLoop, if_pos h]
        rw [hres, valRev_cons, ih ls hlen hvls hvrs hLs, valRev_cons, valRev_cons]
        have hbd : b * valRev b rs ≤ b * valRev b ls := Nat.mul_le_mul_left b hLs
        have hle' : b * valRev b rs + r ≤ l + b * valRev b ls := by omega
        zify [h, hLs, hbd, hle, hle']
        ring
      · push_neg at h
        have hLs : valRev b rs < valRev b ls := by
          by_contra hc
          push_neg at hc
          have h'' : b * valRev b ls ≤ b * valRev b rs := Nat.mul_le_mul_left b hc
          omega
        have h1 : 1 ≤ valRev b ls := by omega
        have hbv := borrow_valRev hb ls hvls h1
        have hres : subLoop b (l :: ls) (r :: rs) =
            (l + b - r) :: subLoop b (borrow b ls) rs := by
          simp only [subLoop, if_neg (by omega : ¬ r ≤ l)]
        have hblen : (borrow b ls).length = rs.length := by
          rw [borrow_length]
          exact hlen
        have hbvalid : ∀ x ∈ borrow b ls, x < b := borrow_valid (by omega) ls hvls
        have hble : valRev b rs ≤ valRev b (borrow b ls) := by
          rw [hbv]
          omega
        rw [hres, valRev_cons, ih (borrow b ls) hblen hbvalid hvrs hble]
        rw [hbv, valRev_cons, valRev_cons]
        have hle2 : valRev b rs ≤ valRev b ls - 1 := by omega
        have hbd : b * valRev b rs ≤ b * (valRev b ls - 1) :=
          Nat.mul_le_mul_left b hle2
        have hrb : r ≤ l + b := by omega
        zify [hrb, hle2, h1, hbd, hle]
        ring

theorem subtract_valid {b : Nat} (hb : 2 ≤ b) (lhs rhs : List Nat)
    (hl : ∀ d ∈ lhs, d < b) (hr : ∀ d ∈ rhs, d < b) :
    ∀ d ∈ subtract lhs rhs b, d < b := by
  intro d hd
  unfold subtract at hd
  rw [List.mem_reverse] at hd
  refine subLoop_valid hb _ _ ?_ ?_ ?_ d hd
  · simp only [List.length_reverse]
    rw [padTo_length _ (le_max_left _ _), padTo_length _ (le_max_right _ _)]
  · intro x hx
    exact padTo_valid (by omega) hl x (List.mem_reverse.mp hx)
  · intro x hx
    exact padTo_valid (by omega) hr x (List.mem_reverse.mp hx)

theorem subtract_val {b : Nat} (hb : 2 ≤ b) (lhs rhs : List Nat)
    (hl : ∀ d ∈ lhs, d < b) (hr : ∀ d ∈ rhs, d < b)
    (hle : toVal b rhs ≤ toVal b lhs) :
    toVal b (subtract lhs rhs b) = toVal b lhs - toVal b rhs := by
  have h1 : valRev b (padTo (max lhs.length rhs.length) lhs).reverse =
      toVal b lhs := by
    rw [← toVal_padTo b (max lhs.length rhs.length) lhs]; rfl
  have h2 : valRev b (padTo (max lhs.length rhs.length) rhs).reverse =
      toVal b rhs := by
    rw [← toVal_padTo b (max lhs.length rhs.length) rhs]; rfl
  unfold subtract
  rw [toVal, List.reverse_reverse]
  rw [subLoop_valRev hb _ _ ?hlen ?hvl ?hvr ?hle]
  · rw [h1, h2]
  case hlen =>
    simp only [List.length_reverse]
    rw [padTo_length _ (le_max_left _ _), padTo_length _ (le_max_right _ _)]
  case hvl =>
    intro x hx
    exact padTo_valid (by omega) hl x (List.mem_reverse.mp hx)
  case hvr =>
    intro x hx
    exact padTo_valid (by omega) hr x (List.mem_reverse.mp hx)
  case hle => rw [h1, h2]; exact hle

/-! ### Lemmas about `multiply` -/

theorem toVal_split (b m0 : Nat) (L : List Nat) :
    toVal b L = toVal b (L.take m0) * b ^ (L.length - m0) + toVal b (L.drop m0) := by
  conv_lhs => rw [← List.take_append_drop m0 L]
  rw [toVal_append, List.length_drop]

/-- Full specification of the fueled Karatsuba recursion: with enough fuel
(`toVal lhs + toVal rhs + max length + 1` suffices, and the measure strictly
decreases along every recursive call), the recursion returns a digit vector
whose value is the product of the operand values and whose digits are all
in range. -/
theorem multiplyF_spec {b : Nat} (hb : 2 ≤ b) :
    ∀ (fuel : Nat) (lhs rhs : List Nat), lhs ≠ [] → rhs ≠ [] →
      (∀ d ∈ lhs, d < b) → (∀ d ∈ rhs, d < b) →
      toVal b lhs + toVal b rhs + max lhs.length rhs.length < fuel →
      ∃ r, multiplyF b fuel lhs rhs = some r ∧
        toVal b r = toVal b lhs * toVal b rhs ∧ (∀ d ∈ r, d < b) := by
  intro fuel
  induction fuel with
  | zero => intro lhs rhs _ _ _ _ hμ; omega
  | succ fuel ih =>
    intro lhs rhs hlne hrne hvl hvr hμ
    have hlpos : 0 < lhs.length := List.length_pos.mpr hlne
    have hrpos : 0 < rhs.length := List.length_pos.mpr hrne
    have hcond : ¬(lhs.length = 0 ∨ rhs.length = 0) := by omega
    obtain ⟨n, hn⟩ : ∃ n, max lhs.length rhs.length = n := ⟨_, rfl⟩
    rw [hn] at hμ
    have hln : lhs.length ≤ n := by rw [← hn]; exact le_max_left _ _
    have hrn : rhs.length ≤ n := by rw [← hn]; exact le_max_right _ _
    have hn1 : 1 ≤ n := by omega
    by_cases hone : n = 1
    · -- base case: two single digits
      subst hone
      obtain ⟨dl, hdl⟩ : ∃ d, lhs = [d] := List.length_eq_one.mp (by omega)
      obtain ⟨dr, hdr⟩ : ∃ d, rhs = [d] := List.length_eq_one.mp (by omega)
      subst hdl
      subst hdr
      have hdlb : dl < b := hvl dl (by simp)
      have hdrb : dr < b := hvr dr (by simp)
      have hpad1 : padTo 1 [dl] = [dl] := rfl
      have hpad2 : padTo 1 [dr] = [dr] := rfl
      by_cases hsm : dl * dr < b
      · refine ⟨[dl * dr], ?_, ?_, ?_⟩
        · rw [multiplyF, if_neg hcond, hn, if_pos rfl, hpad1, hpad2,
            List.headD_cons, List.headD_cons, if_pos hsm]
        · rw [toVal_singleton, toVal_singleton, toVal_singleton]
        · intro d hd
          rcases List.mem_singleton.mp hd with rfl
          exact hsm
      · refine ⟨[dl * dr / b, dl * dr % b], ?_, ?_, ?_⟩
        · rw [multiplyF, if_neg hcond, hn, if_pos rfl, hpad1, hpad2,
            List.headD_cons, List.headD_cons, if_neg hsm]
        · rw [toVal_singleton, toVal_singleton]
          have hpair : toVal b [dl * dr / b, dl * dr % b] =
              dl * dr % b + b * (dl * dr / b) := by
            simp [toVal, valRev]
          rw [hpair, Nat.add_comm, Nat.div_add_mod]
        · intro d hd
          have hlt : dl * dr < b * b := Nat.mul_lt_mul'' hdlb hdrb
          have hq : dl * dr / b < b := Nat.div_lt_of_lt_mul hlt
          have hm : dl * dr % b < b := Nat.mod_lt _ (by omega)
          rcases List.mem_cons.mp hd with rfl | hd'
          · exact hq
          · rcases List.mem_singleton.mp hd' with rfl
            exact hm
    · -- recursive case
      have hn2 : 2 ≤ n := by omega
      obtain ⟨L, hL⟩ : ∃ L, padTo n lhs = L := ⟨_, rfl⟩
      obtain ⟨R, hR⟩ : ∃ R, padTo n rhs = R := ⟨_, rfl⟩
      obtain ⟨m0, hm0⟩ : ∃ m, (n + 1) / 2 = m := ⟨_, rfl⟩
      obtain ⟨m1, hm1⟩ : ∃ m, n / 2 = m := ⟨_, rfl⟩
      have hm01 : m0 + m1 = n := by omega
      have h1m0 : 1 ≤ m0 := by omega
      have h1m1 : 1 ≤ m1 := by omega
      have hm0n : m0 < n := by omega
      have hm1m0 : m1 ≤ m0 := by omega
      have hLlen : L.length = n := by rw [← hL]; exact padTo_length _ hln
      have hRlen : R.length = n := by rw [← hR]; exact padTo_length _ hrn
      have hvL : ∀ d ∈ L, d < b := by
        rw [← hL]; exact padTo_valid (by omega) hvl
      have hvR : ∀ d ∈ R, d < b := by
        rw [← hR]; exact padTo_valid (by omega) hvr
      have hLval : toVal b L = toVal b lhs := by rw [← hL]; exact toVal_padTo _ _ _
      have hRval : toVal b R = toVal b rhs := by rw [← hR]; exact toVal_padTo _ _ _
      obtain ⟨x0, hx0⟩ : ∃ l, L.take m0 = l := ⟨_, rfl⟩
      obtain ⟨x1, hx1⟩ : ∃ l, L.drop m0 = l := ⟨_, rfl⟩
      obtain ⟨y0, hy0⟩ : ∃ l, R.take m0 = l := ⟨_, rfl⟩
      obtain ⟨y1, hy1⟩ : ∃ l, R.drop m0 = l := ⟨_, rfl⟩
      have hx0len : x0.length = m0 := by
        rw [← hx0, List.length_take, hLlen]; omega
      have hx1len : x1.length = m1 := by
        rw [← hx1, List.length_drop, hLlen]; omega
      have hy0len : y0.length = m0 := by
        rw [← hy0, List.length_take, hRlen]; omega
      have hy1len : y1.length = m1 := by
        rw [← hy1, List.length_drop, hRlen]; omega
      have hvx0 : ∀ d ∈ x0, d < b := by
        rw [← hx0]; exact fun d hd => hvL d (List.mem_of_mem_take hd)
      have hvx1 : ∀ d ∈ x1, d < b := by
        rw [← hx1]; exact fun d hd => hvL d (List.mem_of_mem_drop hd)
      have hvy0 : ∀ d ∈ y0, d < b := by
        rw [← hy0]; exact fun d hd => hvR d (List.mem_of_mem_take hd)
      have hvy1 : ∀ d ∈ y1, d < b := by
        rw [← hy1]; exact fun d hd => hvR d (List.mem_of_mem_drop hd)
      have hx0ne : x0 ≠ [] := by
        intro hnil; rw [hnil] at hx0len; simp at hx0len; omega
      have hx1ne : x1 ≠ [] := by
        intro hnil; rw [hnil] at hx1len; simp at hx1len; omega
      have hy0ne : y0 ≠ [] := by
        intro hnil; rw [hnil] at hy0len; simp at hy0len; omega
      have hy1ne : y1 ≠ [] := by
        intro hnil; rw [hnil] at hy1len; simp at hy1len; omega
      have hsplitL : toVal b lhs = toVal b x0 * b ^ m1 + toVal b x1 := by
        rw [← hLval, toVal_split b m0 L, hx0, hx1, hLlen]
        have : n - m0 = m1 := by omega
        rw [this]
      have hsplitR : toVal b rhs = toVal b y0 * b ^ m1 + toVal b y1 := by
        rw [← hRval, toVal_split b m0 R, hy0, hy1, hRlen]
        have : n - m0 = m1 := by omega
        rw [this]
      have hB2 : 2 ≤ b ^ m1 :=
        le_trans hb (Nat.le_self_pow (by omega) b)
      have hX0le : toVal b x0 ≤ toVal b x0 * b ^ m1 :=
        Nat.le_mul_of_pos_right _ (by omega)
      have hY0le : toVal b y0 ≤ toVal b y0 * b ^ m1 :=
        Nat.le_mul_of_pos_right _ (by omega)
      -- first recursive call: high halves
      obtain ⟨p0, hp0eq, hp0val, hp0v⟩ := ih x0 y0 hx0ne hy0ne hvx0 hvy0 (by
        rw [hx0len, hy0len]
        omega)
      -- third recursive call: low halves
      obtain ⟨p2, hp2eq, hp2val, hp2v⟩ := ih x1 y1 hx1ne hy1ne hvx1 hvy1 (by
        rw [hx1len, hy1len]
        omega)
      -- middle recursive call: sums of halves
      have haval : toVal b (add x0 x1 b) = toVal b x0 + toVal b x1 := add_val _ _ _
      have hcval : toVal b (add y0 y1 b) = toVal b y0 + toVal b y1 := add_val _ _ _
      have hva : ∀ d ∈ add x0 x1 b, d < b := add_valid hb _ _ hvx0 hvx1
      have hvc : ∀ d ∈ add y0 y1 b, d < b := add_valid hb _ _ hvy0 hvy1
      have hane : add x0 x1 b ≠ [] := add_ne_nil _ _ _ hx0ne
      have hcne : add y0 y1 b ≠ [] := add_ne_nil _ _ _ hy0ne
      have halen : (add x0 x1 b).length ≤ m0 + 1 := by
        have h := add_length_le x0 x1 b
        rw [hx0len, hx1len] at h
        omega
      have hclen : (add y0 y1 b).length ≤ m0 + 1 := by
        have h := add_length_le y0 y1 b
        rw [hy0len, hy1len] at h
        omega
      have hmid : toVal b (add x0 x1 b) + toVal b (add y0 y1 b) +
          max (add x0 x1 b).length (add y0 y1 b).length < fuel := by
        by_cases hz : toVal b x0 = 0 ∧ toVal b y0 = 0
        · -- values tie, lengths strictly decrease: no carry can occur
          have hx0z : ∀ d ∈ x0, d = 0 := by
            have hz1 : valRev b x0.reverse = 0 := hz.1
            exact fun d hd => valRev_eq_zero (by omega) hz1 d (List.mem_reverse.mpr hd)
          have hy0z : ∀ d ∈ y0, d = 0 := by
            have hz2 : valRev b y0.reverse = 0 := hz.2
            exact fun d hd => valRev_eq_zero (by omega) hz2 d (List.mem_reverse.mpr hd)
          have ha_eq : add x0 x1 b = padTo x0.length x1 :=
            add_zeros (by omega) x0 x1 hx0z hvx1 (by omega)
          have hc_eq : add y0 y1 b = padTo y0.length y1 :=
            add_zeros (by omega) y0 y1 hy0z hvy1 (by omega)
          have halen' : (add x0 x1 b).length = m0 := by
            rw [ha_eq, padTo_length _ (by omega), hx0len]
          have hclen' : (add y0 y1 b).length = m0 := by
            rw [hc_eq, padTo_length _ (by omega), hy0len]
          rw [haval, hcval, halen', hclen', hz.1, hz.2]
          rw [hsplitL, hsplitR, hz.1, hz.2] at hμ
          simp only [Nat.zero_mul, Nat.zero_add] at hμ ⊢
          omega
        · -- at least one high half is nonzero: values strictly decrease
          have hor : 1 ≤ toVal b x0 ∨ 1 ≤ toVal b y0 := by
            by_contra hc
            push_neg at hc
            exact hz ⟨by omega, by omega⟩
          have hmulX : toVal b x0 * 2 ≤ toVal b x0 * b ^ m1 :=
            Nat.mul_le_mul_left _ hB2
          have hmulY : toVal b y0 * 2 ≤ toVal b y0 * b ^ m1 :=
            Nat.mul_le_mul_left _ hB2
          rw [haval, hcval]
          have hmax : max (add x0 x1 b).length (add y0 y1 b).length ≤ n := by
            omega
          rcases hor with h1 | h1 <;>
            (rw [hsplitL, hsplitR] at hμ; omega)
      obtain ⟨p1, hp1eq, hp1val, hp1v⟩ :=
        ih (add x0 x1 b) (add y0 y1 b) hane hcne hva hvc hmid
      -- the cross term
      have hsum_val : toVal b (add p0 p2 b) = toVal b p0 + toVal b p2 := add_val _ _ _
      have hsum_valid : ∀ d ∈ add p0 p2 b, d < b := add_valid hb _ _ hp0v hp2v
      have hprod_id : (toVal b x0 + toVal b x1) * (toVal b y0 + toVal b y1) =
          toVal b x0 * toVal b y0 + toVal b x1 * toVal b y1 +
            (toVal b x0 * toVal b y1 + toVal b x1 * toVal b y0) := by
        ring
      have hp1big : toVal b p1 = toVal b x0 * toVal b y0 + toVal b x1 * toVal b y1 +
          (toVal b x0 * toVal b y1 + toVal b x1 * toVal b y0) := by
        rw [hp1val, haval, hcval, hprod_id]
      have hle : toVal b (add p0 p2 b) ≤ toVal b p1 := by
        rw [hsum_val, hp0val, hp2val, hp1big]
        omega
      have hz1val : toVal b (subtract p1 (add p0 p2 b) b) =
          toVal b x0 * toVal b y1 + toVal b x1 * toVal b y0 := by
        rw [subtract_val hb p1 (add p0 p2 b) hp1v hsum_valid hle,
          hsum_val, hp0val, hp2val, hp1big]
        omega
      have hz1valid : ∀ d ∈ subtract p1 (add p0 p2 b) b, d < b :=
        subtract_valid hb _ _ hp1v hsum_valid
      -- the recombination
      have hzerovalid : ∀ k : Nat, ∀ d ∈ (List.replicate k 0 : List Nat), d < b := by
        intro k d hd
        rcases List.eq_of_mem_replicate hd with rfl
        omega
      have hshift0 : ∀ d ∈ p0 ++ List.replicate (2 * m1) 0, d < b := by
        intro d hd
        rcases List.mem_append.mp hd with h | h
        · exact hp0v d h
        · exact hzerovalid _ d h
      have hshift1 : ∀ d ∈ subtract p1 (add p0 p2 b) b ++ List.replicate m1 0, d < b := by
        intro d hd
        rcases List.mem_append.mp hd with h | h
        · exact hz1valid d h
        · exact hzerovalid _ d h
      refine ⟨add (add (p0 ++ List.replicate (2 * m1) 0)
          (subtract p1 (add p0 p2 b) b ++ List.replicate m1 0) b) p2 b, ?_, ?_, ?_⟩
      · -- evaluation of the recursive body
        rw [multiplyF, if_neg hcond]
        simp only [hn, if_neg hone, hL, hR, hm0, hm1, hx0, hx1, hy0, hy1,
          hp0eq, hp1eq, hp2eq]
      · -- value correctness
        rw [add_val, add_val, toVal_shift, toVal_shift, hp0val, hp2val, hz1val,
          hsplitL, hsplitR, two_mul, pow_add]
        ring
      · -- digit range of the result
        exact add_valid hb _ _ (add_valid hb _ _ hshift0 hshift1) hp2v

theorem toVal_trimZeros (b : Nat) (l : List Nat) :
    toVal b (trimZeros l) = toVal b l := by
  induction l with
  | nil => rfl
  | cons d ds ih =>
    by_cases h : d = 0
    · subst h
      have heq : trimZeros (0 :: ds) = trimZeros ds := by
        simp [trimZeros]
      rw [heq, ih, toVal_cons]
      simp
    · have heq : trimZeros (d :: ds) = d :: ds := by
        simp [trimZeros, h]
      rw [heq]

theorem trimZeros_headD (l : List Nat) : (trimZeros l).headD 1 ≠ 0 := by
  induction l with
  | nil => simp [trimZeros]
  | cons d ds ih =>
    by_cases h : d = 0
    · subst h
      have heq : trimZeros (0 :: ds) = trimZeros ds := by
        simp [trimZeros]
      rw [heq]
      exact ih
    · have heq : trimZeros (d :: ds) = d :: ds := by
        simp [trimZeros, h]
      rw [heq]
      simpa using h

/-! ### The claims -/

/-- C1: for every pair of digit vectors with all digits in the base and both
non-empty, the value of the digit vector returned by `multiply` equals the
product of the values of the operands (so the Karatsuba recursion agrees
with grade-school multiplication of the same digit vectors). -/
theorem karatsuba_mul_correct (lhs rhs : List Nat) (b : Nat) (hb : 2 ≤ b)
    (hlne : lhs ≠ []) (hrne : rhs ≠ [])
    (hvl : ∀ d ∈ lhs, d < b) (hvr : ∀ d ∈ rhs, d < b) :
    ∃ r, multiply lhs rhs b = some r ∧ toVal b r = toVal b lhs * toVal b rhs := by
  obtain ⟨r, h1, h2, _⟩ := multiplyF_spec hb (kfuel lhs rhs b) lhs rhs hlne hrne
    hvl hvr (by unfold kfuel; omega)
  exact ⟨r, h1, h2⟩

theorem karatsuba_mul_correct_witness :
    2 ≤ 10 ∧ ∃ r, multiply [1, 3, 3, 7] [1, 0, 0, 0] 10 = some r ∧
      toVal 10 r = toVal 10 [1, 3, 3, 7] * toVal 10 [1, 0, 0, 0] :=
  ⟨by omega, karatsuba_mul_correct [1, 3, 3, 7] [1, 0, 0, 0] 10 (by omega)
    (by simp) (by simp) (by decide) (by decide)⟩

/-- C2: evaluation of the failing input of the claim.  The source's
docstring promises an error when `lhs < rhs`, but the borrow walk
(`while j <= length`) simply runs off the top of the vector and the
function silently returns a digit vector: `subtract([1], [2], 10)`
returns `[9]` instead of failing. -/
theorem subtract_underflow_returns : subtract [1] [2] 10 = [9] := by decide

/-- C3 counterexample: `multiply` keeps the leading zero block coming from
operand padding, so its result is not of minimal length even for a nonzero
product: `multiply([1], [1,0], 10)` returns `[0,1,0]`. -/
theorem multiply_leading_zero_cex :
    multiply [1] [1, 0] 10 = some [0, 1, 0] ∧
      ([0, 1, 0] : List Nat).headD 0 = 0 ∧ toVal 10 [1] * toVal 10 [1, 0] ≠ 0 := by
  decide

/-- C3 amended: the digit vector returned by `multiply` represents the
product, but the final recombination sum is returned without trimming; after
stripping the leading zero block the remainder is the minimal representation
(its leading digit is nonzero, and it is empty only for a zero product). -/
theorem multiply_trimmed_minimal (lhs rhs : List Nat) (b : Nat) (hb : 2 ≤ b)
    (hlne : lhs ≠ []) (hrne : rhs ≠ [])
    (hvl : ∀ d ∈ lhs, d < b) (hvr : ∀ d ∈ rhs, d < b) :
    ∃ r, multiply lhs rhs b = some r ∧
      toVal b (trimZeros r) = toVal b lhs * toVal b rhs ∧
      (trimZeros r).headD 1 ≠ 0 := by
  obtain ⟨r, h1, h2, _⟩ := multiplyF_spec hb (kfuel lhs rhs b) lhs rhs hlne hrne
    hvl hvr (by unfold kfuel; omega)
  exact ⟨r, h1, by rw [toVal_trimZeros, h2], trimZeros_headD r⟩

theorem multiply_trimmed_minimal_witness :
    2 ≤ 10 ∧ ∃ r, multiply [1] [1, 0] 10 = some r ∧
      toVal 10 (trimZeros r) = toVal 10 [1] * toVal 10 [1, 0] ∧
      (trimZeros r).headD 1 ≠ 0 :=
  ⟨by omega, multiply_trimmed_minimal [1] [1, 0] 10 (by omega)
    (by simp) (by simp) (by decide) (by decide)⟩

/-- C4 counterexample: the borrow chain of `subtract([1,0,0,0], [1], 10)` is
resolved, but the result keeps the padded input length: the function returns
`[0,9,9,9]`, not `[9,9,9]` as the claim states. -/
theorem subtract_borrow_chain_cex :
    subtract [1, 0, 0, 0] [1] 10 = [0, 9, 9, 9] ∧
      subtract [1, 0, 0, 0] [1] 10 ≠ [9, 9, 9] := by
  decide

/-- C4 amended: `subtract([1,0,0,0], [1], 10)` returns `[0,9,9,9]`: the
borrow chain spanning the entire vector is resolved correctly in value
(999), but the result carries one leading zero digit because the output
always has the padded input length and is never trimmed. -/
theorem subtract_borrow_chain_amended :
    subtract [1, 0, 0, 0] [1] 10 = [0, 9, 9, 9] ∧
      toVal 10 (subtract [1, 0, 0, 0] [1] 10) = 999 ∧
      trimZeros (subtract [1, 0, 0, 0] [1] 10) = [9, 9, 9] := by
  decide

/-- C5 counterexample: `add` emits one digit per padded column, so operands
whose padded leading column is zero produce a result with a leading zero
even though the sum is nonzero: `add([0,1], [0,1], 10)` returns `[0,2]`. -/
theorem add_leading_zero_cex :
    add [0, 1] [0, 1] 10 = [0, 2] ∧
      toVal 10 [0, 1] + toVal 10 [0, 1] ≠ 0 ∧
      (add [0, 1] [0, 1] 10).headD 0 = 0 := by
  decide

/-- C5 amended: `add` always returns a most-significant-first digit vector
whose value is exactly `lhs + rhs`; its leading digit is nonzero whenever
the leading column of the padded operands is nonzero (in particular for
operands without leading zeros), and `add([9,9,9], [1], 10) = [1,0,0,0]`;
but when the padded leading column is zero the result keeps a leading zero
digit even for a nonzero sum. -/
theorem add_correct_amended (lhs rhs : List Nat) (b : Nat) :
    toVal b (add lhs rhs b) = toVal b lhs + toVal b rhs ∧
    (1 ≤ (padTo (max lhs.length rhs.length) lhs).headD 0 +
         (padTo (max lhs.length rhs.length) rhs).headD 0 →
      (add lhs rhs b).headD 0 ≠ 0) ∧
    add [9, 9, 9] [1] 10 = [1, 0, 0, 0] :=
  ⟨add_val _ _ _, fun h => add_headD _ _ h, by decide⟩

theorem add_correct_amended_witness :
    (1 ≤ (padTo (max (List.length [9, 9, 9]) (List.length [1])) [9, 9, 9]).headD 0 +
         (padTo (max (List.length [9, 9, 9]) (List.length [1])) [1]).headD 0) ∧
    (add [9, 9, 9] [1] 10).headD 0 ≠ 0 :=
  ⟨by decide, (add_correct_amended [9, 9, 9] [1] 10).2.1 (by decide)⟩

/-- C6: for digit vectors with digits in the base and `y <= x` in value,
adding `y` back to `subtract(x, y, b)` yields a digit vector with the same
value as `x`. -/
theorem sub_add_roundtrip (x y : List Nat) (b : Nat) (hb : 2 ≤ b)
    (hvx : ∀ d ∈ x, d < b) (hvy : ∀ d ∈ y, d < b)
    (hle : toVal b y ≤ toVal b x) :
    toVal b (add (subtract x y b) y b) = toVal b x := by
  rw [add_val, subtract_val hb x y hvx hvy hle]
  omega

theorem sub_add_roundtrip_witness :
    2 ≤ 10 ∧ toVal 10 [1] ≤ toVal 10 [1, 0, 0, 0] ∧
      toVal 10 (add (subtract [1, 0, 0, 0] [1] 10) [1] 10) = toVal 10 [1, 0, 0, 0] :=
  ⟨by omega, by decide,
    sub_add_roundtrip [1, 0, 0, 0] [1] 10 (by omega) (by decide) (by decide) (by decide)⟩

/-- C7: multiplying any non-empty digit vector with digits in the base by
the vector `[1]` yields a digit vector with the same value. -/
theorem multiply_one_identity (x : List Nat) (b : Nat) (hb : 2 ≤ b)
    (hne : x ≠ []) (hv : ∀ d ∈ x, d < b) :
    ∃ r, multiply x [1] b = some r ∧ toVal b r = toVal b x := by
  have hv1 : ∀ d ∈ [1], d < b := by
    intro d hd
    rcases List.mem_singleton.mp hd with rfl
    omega
  obtain ⟨r, h1, h2, _⟩ := multiplyF_spec hb (kfuel x [1] b) x [1] hne (by simp)
    hv hv1 (by unfold kfuel; omega)
  refine ⟨r, h1, ?_⟩
  rw [h2, toVal_singleton, Nat.mul_one]

theorem multiply_one_identity_witness :
    2 ≤ 10 ∧ ∃ r, multiply [1, 3, 3, 7] [1] 10 = some r ∧
      toVal 10 r = toVal 10 [1, 3, 3, 7] :=
  ⟨by omega, multiply_one_identity [1, 3, 3, 7] 10 (by omega) (by simp) (by decide)⟩

/-- C8: `multiply` fails (the embedded counterpart of the source's
`assert len(lhs) > 0 and len(rhs) > 0` raising) whenever either input has
length zero, for every value of the other input and of the base. -/
theorem multiply_empty_rejected (lhs rhs : List Nat) (b : Nat)
    (h : lhs.length = 0 ∨ rhs.length = 0) : multiply lhs rhs b = none := by
  unfold multiply kfuel
  rw [multiplyF, if_pos h]

theorem multiply_empty_rejected_witness :
    (List.length ([] : List Nat) = 0 ∨ List.length [1] = 0) ∧
      multiply [] [1] 10 = none :=
  ⟨Or.inl rfl, multiply_empty_rejected [] [1] 10 (Or.inl rfl)⟩

/-- C9: each of the three operations preserves the digit-range invariant:
for operands with all digits in the base (and, for `subtract`, a left
operand at least as large in value), every digit of the result is again in
the base. -/
theorem digit_range_preserved (lhs rhs : List Nat) (b : Nat) (hb : 2 ≤ b)
    (hvl : ∀ d ∈ lhs, d < b) (hvr : ∀ d ∈ rhs, d < b) :
    (∀ d ∈ add lhs rhs b, d < b) ∧
    (toVal b rhs ≤ toVal b lhs → ∀ d ∈ subtract lhs rhs b, d < b) ∧
    (lhs ≠ [] → rhs ≠ [] → ∃ r, multiply lhs rhs b = some r ∧ ∀ d ∈ r, d < b) := by
  refine ⟨add_valid hb _ _ hvl hvr, fun _ => subtract_valid hb _ _ hvl hvr,
    fun h1 h2 => ?_⟩
  obtain ⟨r, hr, _, hv⟩ := multiplyF_spec hb (kfuel lhs rhs b) lhs rhs h1 h2
    hvl hvr (by unfold kfuel; omega)
  exact ⟨r, hr, hv⟩

theorem digit_range_preserved_witness :
    2 ≤ 10 ∧ (∀ d ∈ add [7, 5] [8] 10, d < 10) ∧
      (∀ d ∈ subtract [7, 5] [8] 10, d < 10) ∧
      (∃ r, multiply [7, 5] [8] 10 = some r ∧ ∀ d ∈ r, d < 10) := by
  have h := digit_range_preserved [7, 5] [8] 10 (by omega) (by decide) (by decide)
  exact ⟨by omega, h.1, h.2.1 (by decide), h.2.2 (by simp) (by simp)⟩

/-- C10: termination of the Karatsuba recursion on every valid input: with
the explicitly computed fuel bound `kfuel` (the operand values plus the
padded length plus one, which strictly bounds the recursion depth even
though the middle recursive call can receive operands of the same padded
length as the current call), `multiply` returns a result rather than
exhausting its fuel. -/
theorem multiply_terminates (lhs rhs : List Nat) (b : Nat) (hb : 2 ≤ b)
    (hlne : lhs ≠ []) (hrne : rhs ≠ [])
    (hvl : ∀ d ∈ lhs, d < b) (hvr : ∀ d ∈ rhs, d < b) :
    ∃ r, multiply lhs rhs b = some r := by
  obtain ⟨r, h1, _, _⟩ := multiplyF_spec hb (kfuel lhs rhs b) lhs rhs hlne hrne
    hvl hvr (by unfold kfuel; omega)
  exact ⟨r, h1⟩

theorem multiply_terminates_witness :
    2 ≤ 2 ∧ ∃ r, multiply [1, 1, 1] [1, 1, 1] 2 = some r :=
  ⟨le_refl 2, multiply_terminates [1, 1, 1] [1, 1, 1] 2 (le_refl 2)
    (by simp) (by simp) (by decide) (by decide)⟩

end Karatsuba
